import Mathlib

/-
Verification of the `cold` static linker (src/src/link.rs) against its
natural-language specification.

The development shallowly embeds the core linking pipeline of `link`:
 * section merging of parsed ELF64 objects into the `output_sections`
   BTreeMap (modelled as a lexicographically sorted association list),
 * the global symbol table,
 * image layout (`Writer::reserve` with 4096 alignment after the file
   header and one program header),
 * the relocation engine (R_X86_64_32S and R_X86_64_PLT32),
 * entry-point computation and the final file write.

Rust panics (BTreeMap indexing, `unwrap`, `unimplemented!`, slice
out-of-bounds) are modelled as `LinkFailure.crash`; `anyhow` errors
propagated with `?` are modelled as `LinkFailure.fatal`.  Machine
integers are modelled as `Nat`/`Int` with explicit truncation mod 2^32
where the code truncates (`as i32`).
-/

namespace Cold

/-- Relocation kind as classified by the `object` crate
(`relocation.inner.kind()`); only the constructors the code matches on
are distinguished. -/
inductive RelocKind where
  | absolute
  | pltRelative
  | otherKind
deriving DecidableEq, Repr

/-- Relocation encoding (`relocation.inner.encoding()`). -/
inductive RelocEncoding where
  | x86Signed
  | generic
  | otherEncoding
deriving DecidableEq, Repr

/-- Raw relocation target as delivered by the parser
(`relocation.target()`): a symbol index, or some other target which the
code treats as `unimplemented!()`. -/
inductive RawTarget where
  | symbol (idx : Nat)
  | otherTarget
deriving DecidableEq, Repr

/-- An input relocation entry attached to an input section
(offset into the input section is carried separately, as in
`section.relocations()`). -/
structure InputReloc where
  kind : RelocKind
  encoding : RelocEncoding
  size : Nat
  addend : Int
  target : RawTarget
deriving DecidableEq, Repr

/-- Symbol kind (`symbol.kind()`); the code only distinguishes
`SymbolKind::Section` from everything else. -/
inductive SymKind where
  | sectionKind
  | otherSymKind
deriving DecidableEq, Repr

/-- The section field of a parsed symbol (`symbol.section()`):
undefined, a concrete section index, or another variant
(absolute/common/...), which the code treats as `unimplemented!()`. -/
inductive SymSection where
  | undef
  | inSection (idx : Nat)
  | special
deriving DecidableEq, Repr

/-- A parsed input symbol.  `symbol.is_undefined()` corresponds to
`sect = .undef`; `symbol.address()` is `address`. -/
structure InputSymbol where
  name : String
  kind : SymKind
  sect : SymSection
  address : Nat
deriving DecidableEq, Repr

/-- A parsed input section: name, raw data bytes, ELF `sh_flags`, and
the relocations attached to it (pairs of offset-into-section and
relocation). -/
structure InputSection where
  name : String
  data : List Nat
  shFlags : Nat
  relocations : List (Nat × InputReloc)
deriving DecidableEq, Repr

/-- A parsed ELF64 little-endian relocatable object: the full section
table (index 0 is the null section) and the full symbol table (index 0
is the null symbol, skipped by the merger). -/
structure ElfObject where
  sections : List InputSection
  symbols : List InputSymbol
deriving DecidableEq, Repr

/-- One input file after the load/parse stage: a parsed ELF64 object, a
valid archive (parsed, then ignored with a warning), or a file that
fails to read or parse (surfaced as an `anyhow` error via `?`). -/
inductive InputItem where
  | object (o : ElfObject)
  | archive
  | invalid
deriving DecidableEq, Repr

/-- Target of a merged relocation (the `RelocationTarget` enum of
link.rs): a section name with an additional offset, or a symbol name. -/
inductive RelocationTarget where
  | section (name : String) (off : Nat)
  | symbol (name : String)
deriving DecidableEq, Repr

/-- A merged relocation (the `Relocation` struct of link.rs): offset
into the output section plus the fields of the inner `object`
relocation it retains. -/
structure Relocation where
  offset : Nat
  kind : RelocKind
  encoding : RelocEncoding
  size : Nat
  addend : Int
  target : RelocationTarget
deriving DecidableEq, Repr

/-- A resolved symbol (the `Symbol` struct of link.rs): defining output
section name and offset into that output section.  (The ELF string id
bookkeeping is irrelevant to addressing and omitted.) -/
structure Symbol where
  sectionName : String
  offset : Nat
deriving DecidableEq, Repr

/-- An output section (the `OutputSection` struct of link.rs). -/
structure OutputSection where
  name : String := ""
  content : List Nat := []
  offset : Nat := 0
  relocations : List Relocation := []
  isExecutable : Bool := false
deriving DecidableEq, Repr

/-- Failure of the linking pipeline: `fatal` models an `anyhow` error
returned with `?` / `return Err`, `crash` models a Rust panic
(`unwrap`, `unimplemented!`, BTreeMap indexing, slice out of range). -/
inductive LinkFailure where
  | fatal (msg : String)
  | crash (msg : String)
deriving DecidableEq, Repr

/-- Sorted association list standing in for `BTreeMap<String, _>`. -/
abbrev SecMap := List (String × OutputSection)

/-- Sorted association list standing in for the symbol `BTreeMap`. -/
abbrev SymMap := List (String × Symbol)

/-- Character-list prefix test (the semantics of Rust's
`str::starts_with`). -/
def listPrefixEq : List Char → List Char → Bool
  | [], _ => true
  | _ :: _, [] => false
  | a :: as, b :: bs => a = b && listPrefixEq as bs

/-- `name.starts_with(pre)`. -/
def strStartsWith (s pre : String) : Bool := listPrefixEq pre.data s.data

/-- Lexicographic strict order on character lists. -/
def charListLt : List Char → List Char → Bool
  | [], [] => false
  | [], _ :: _ => true
  | _ :: _, [] => false
  | a :: as, b :: bs => a < b || (a = b && charListLt as bs)

/-- Lexicographic strict order on strings (the `Ord` used by
`BTreeMap<String, _>`). -/
def strLt (s t : String) : Bool := charListLt s.data t.data

/-- `BTreeMap::get`-style lookup in an association list. -/
def lookupA {α : Type} : List (String × α) → String → Option α
  | [], _ => none
  | p :: rest, n => if n = p.1 then some p.2 else lookupA rest n

/-- `BTreeMap::insert`: insert keeping keys strictly sorted
(lexicographically), replacing an existing binding. -/
def insertA {α : Type} (k : String) (v : α) : List (String × α) → List (String × α)
  | [] => [(k, v)]
  | p :: rest =>
    if strLt k p.1 then (k, v) :: p :: rest
    else if k = p.1 then (k, v) :: rest
    else p :: insertA k v rest

/-- Snapshot of the current output-section sizes taken at the start of
each object (`section_sizes` at link.rs:149-152). -/
def sectionSizes (secs : SecMap) : List (String × Nat) :=
  secs.map (fun p => (p.1, p.2.content.length))

/-- `section_sizes.get(name).unwrap_or(&0)`. -/
def getSize (sizes : List (String × Nat)) (n : String) : Nat :=
  (lookupA sizes n).getD 0

/-- The section-name exclusion test of link.rs:162-165: a section is
merged iff its name is not `.symtab`/`.strtab`/`.shstrtab`, does not
start with `.rela`, and is not empty. -/
def included (name : String) : Bool :=
  !(name = ".symtab" || name = ".strtab" || name = ".shstrtab")
    && !(strStartsWith name ".rela") && !(name = "")

/-- Rebase one input relocation of input section `name` against the
per-object size snapshot (link.rs:172-219): a relocation against a
`Section`-kind symbol becomes a section-target relocation carrying the
snapshot size of the defining section; otherwise the symbol name is
kept. -/
def rebaseReloc (sizes : List (String × Nat)) (obj : ElfObject) (name : String)
    (e : Nat × InputReloc) : Except LinkFailure Relocation :=
  match e.2.target with
  | .symbol idx =>
    match obj.symbols.get? idx with
    | none => .error (.fatal "invalid symbol index")
    | some sym =>
      if sym.kind = .sectionKind then
        match sym.sect with
        | .inSection m =>
          match obj.sections.get? m with
          | none => .error (.fatal "invalid section index")
          | some ts =>
            .ok { offset := e.1 + getSize sizes name, kind := e.2.kind,
                  encoding := e.2.encoding, size := e.2.size, addend := e.2.addend,
                  target := .section ts.name (getSize sizes ts.name) }
        | _ => .error (.crash "called unwrap on a None value")
      else
        .ok { offset := e.1 + getSize sizes name, kind := e.2.kind,
              encoding := e.2.encoding, size := e.2.size, addend := e.2.addend,
              target := .symbol sym.name }
  | .otherTarget => .error (.crash "unimplemented relocation target")

/-- Rebase a whole relocation list, in order. -/
def rebaseRelocs (sizes : List (String × Nat)) (obj : ElfObject) (name : String) :
    List (Nat × InputReloc) → Except LinkFailure (List Relocation)
  | [] => .ok []
  | e :: rest =>
    match rebaseReloc sizes obj name e with
    | .error f => .error f
    | .ok r =>
      match rebaseRelocs sizes obj name rest with
      | .error f => .error f
      | .ok rs => .ok (r :: rs)

/-- Merge one input section into the output-section map
(link.rs:154-228): empty-data sections are skipped, excluded names are
skipped, otherwise the data is appended to the (possibly fresh) output
section, relocations are rebased and appended, and the executable flag
is OR-ed in from `sh_flags & SHF_EXECINSTR`. -/
def mergeSection (sizes : List (String × Nat)) (obj : ElfObject) (secs : SecMap)
    (s : InputSection) : Except LinkFailure SecMap :=
  if s.data = [] then .ok secs
  else if included s.name then
    match rebaseRelocs sizes obj s.name s.relocations with
    | .error f => .error f
    | .ok newRelocs =>
      .ok (insertA s.name
        { name := s.name,
          content := ((lookupA secs s.name).getD {}).content ++ s.data,
          offset := ((lookupA secs s.name).getD {}).offset,
          relocations := ((lookupA secs s.name).getD {}).relocations ++ newRelocs,
          isExecutable := ((lookupA secs s.name).getD {}).isExecutable
            || decide (Nat.land s.shFlags 4 ≠ 0) } secs)
  else .ok secs

/-- Merge all sections of one object, left to right. -/
def mergeSections (sizes : List (String × Nat)) (obj : ElfObject) (secs : SecMap) :
    List InputSection → Except LinkFailure SecMap
  | [] => .ok secs
  | s :: rest =>
    match mergeSection sizes obj secs s with
    | .error f => .error f
    | .ok secs' => mergeSections sizes obj secs' rest

/-- Insert one defined, non-section symbol into the global symbol table
(link.rs:232-255); its offset is rebased against the per-object size
snapshot.  A later insertion under the same name overwrites. -/
def addSymbol (sizes : List (String × Nat)) (obj : ElfObject) (syms : SymMap)
    (sym : InputSymbol) : Except LinkFailure SymMap :=
  if sym.sect = .undef ∨ sym.kind = .sectionKind then .ok syms
  else
    match sym.sect with
    | .inSection idx =>
      match obj.sections.get? idx with
      | none => .error (.fatal "invalid section index")
      | some s =>
        .ok (insertA sym.name
          { sectionName := s.name, offset := sym.address + getSize sizes s.name } syms)
    | _ => .error (.crash "unimplemented symbol section")

/-- Process a list of symbols, left to right. -/
def addSymbols (sizes : List (String × Nat)) (obj : ElfObject) (syms : SymMap) :
    List InputSymbol → Except LinkFailure SymMap
  | [] => .ok syms
  | sym :: rest =>
    match addSymbol sizes obj syms sym with
    | .error f => .error f
    | .ok syms' => addSymbols sizes obj syms' rest

/-- Merge one parsed object: snapshot the output-section sizes once,
then merge every section, then insert every non-null symbol
(link.rs:147-256). -/
def mergeObject (st : SecMap × SymMap) (obj : ElfObject) :
    Except LinkFailure (SecMap × SymMap) :=
  match mergeSections (sectionSizes st.1) obj st.1 obj.sections with
  | .error f => .error f
  | .ok secs' =>
    match addSymbols (sectionSizes st.1) obj st.2 (obj.symbols.drop 1) with
    | .error f => .error f
    | .ok syms' => .ok (secs', syms')

/-- Process one input item: archives parse and are otherwise ignored
(link.rs:138-141); unreadable/unparsable files are fatal errors. -/
def mergeItem (st : SecMap × SymMap) : InputItem → Except LinkFailure (SecMap × SymMap)
  | .object o => mergeObject st o
  | .archive => .ok st
  | .invalid => .error (.fatal "parse failure")

/-- Fold `mergeItem` over the input list from a given state. -/
def mergeList (st : SecMap × SymMap) : List InputItem → Except LinkFailure (SecMap × SymMap)
  | [] => .ok st
  | it :: rest =>
    match mergeItem st it with
    | .error f => .error f
    | .ok st' => mergeList st' rest

/-- The whole parse-and-merge phase, from empty maps. -/
def mergeAll (items : List InputItem) : Except LinkFailure (SecMap × SymMap) :=
  mergeList ([], []) items

/-- The fixed load address of the single `PT_LOAD` segment
(link.rs:276). -/
def loadAddress : Nat := 0x400000

/-- Round `pos` up to a multiple of `a` (the `object` crate's
`util::align`, for the power-of-two alignments used here). -/
def alignTo (pos a : Nat) : Nat := (pos + a - 1) / a * a

/-- `Writer::reserve(len, align_start)`: returns the reserved offset and
the new reserved length.  A zero-length reservation returns the current
position unchanged. -/
def reserveRange (len align pos : Nat) : Nat × Nat :=
  if len = 0 then (pos, pos)
  else
    let off := alignTo pos align
    (off, off + len)

/-- Bytes reserved before the first section: the ELF64 file header (64
bytes, link.rs:271) plus one program header (56 bytes, link.rs:273). -/
def headersLen : Nat := 64 + 56

/-- Assign file offsets to the output sections in map order
(link.rs:277-279): each section reserves `content.len()` bytes aligned
to 4096.  Returns the updated sections and the reserved length after
the last section. -/
def layoutSections (pos : Nat) : SecMap → SecMap × Nat
  | [] => ([], pos)
  | p :: rest =>
    ((p.1, { p.2 with offset := (reserveRange p.2.content.length 4096 pos).1 }) ::
        (layoutSections (reserveRange p.2.content.length 4096 pos).2 rest).1,
      (layoutSections (reserveRange p.2.content.length 4096 pos).2 rest).2)

/-- `section_address`: name to virtual address, `offset + load_address`
(link.rs:310-313). -/
def sectionAddresses (secs : SecMap) : List (String × Nat) :=
  secs.map (fun p => (p.1, p.2.offset + loadAddress))

/-- Resolve a relocation target to its virtual address
(link.rs:319-329).  The BTreeMap index expressions `section_address[..]`
and `symbols[..]` panic when the key is absent. -/
def resolveTarget (addrs : List (String × Nat)) (syms : SymMap) :
    RelocationTarget → Except LinkFailure Nat
  | .section n off =>
    match lookupA addrs n with
    | none => .error (.crash "no entry found for key")
    | some a => .ok (a + off)
  | .symbol n =>
    match lookupA syms n with
    | none => .error (.crash "no entry found for key")
    | some sym =>
      match lookupA addrs sym.sectionName with
      | none => .error (.crash "no entry found for key")
      | some a => .ok (a + sym.offset)

/-- The four little-endian bytes of `(value as i32).to_le_bytes()`:
the low 32 bits of the two's-complement representation of `v`. -/
def toLeBytes4 (v : Int) : List Nat :=
  let n := (v.emod 4294967296).toNat
  [n % 256, n / 256 % 256, n / 65536 % 256, n / 16777216 % 256]

/-- Byte `i` of the 32-bit little-endian signed encoding of `v`. -/
def leByte (v : Int) (i : Nat) : Nat :=
  (v.emod 4294967296).toNat / 256 ^ i % 256

/-- `content[off .. off + bs.length].copy_from_slice(bs)` (meaningful
when `off + bs.length ≤ content.length`). -/
def patchBytes (content : List Nat) (off : Nat) (bs : List Nat) : List Nat :=
  content.take off ++ bs ++ content.drop (off + bs.length)

/-- Apply one relocation to the content of the output section at file
offset `secOffset` (link.rs:316-359): resolve the target, then patch
according to `(kind, encoding, size)`.  Any other combination is an
`unimplemented!()` panic; patching out of the content's bounds is a
slice panic. -/
def applyReloc (addrs : List (String × Nat)) (syms : SymMap) (secOffset : Nat)
    (content : List Nat) (r : Relocation) : Except LinkFailure (List Nat) :=
  match resolveTarget addrs syms r.target with
  | .error f => .error f
  | .ok t =>
    match r.kind, r.encoding, r.size with
    | .absolute, .x86Signed, 32 =>
      -- R_X86_64_32S: value = S + A
      if r.offset + 4 ≤ content.length then
        .ok (patchBytes content r.offset (toLeBytes4 ((t : Int) + r.addend)))
      else .error (.crash "range end index out of range")
    | .pltRelative, .generic, 32 =>
      -- R_X86_64_PLT32, implemented as R_X86_64_PC32: value = S + A - P
      if r.offset + 4 ≤ content.length then
        .ok (patchBytes content r.offset
          (toLeBytes4 ((t : Int) + r.addend - ((loadAddress + secOffset + r.offset : Nat) : Int))))
      else .error (.crash "range end index out of range")
    | _, _, _ => .error (.crash "unimplemented relocation")

/-- Apply a section's relocations in insertion order. -/
def applyRelocs (addrs : List (String × Nat)) (syms : SymMap) (secOffset : Nat) :
    List Nat → List Relocation → Except LinkFailure (List Nat)
  | content, [] => .ok content
  | content, r :: rest =>
    match applyReloc addrs syms secOffset content r with
    | .error f => .error f
    | .ok c => applyRelocs addrs syms secOffset c rest

/-- The relocation engine pass over all output sections in map order. -/
def relocateAll (addrs : List (String × Nat)) (syms : SymMap) :
    SecMap → Except LinkFailure SecMap
  | [] => .ok []
  | p :: rest =>
    match applyRelocs addrs syms p.2.offset p.2.content p.2.relocations with
    | .error f => .error f
    | .ok c =>
      match relocateAll addrs syms rest with
      | .error f => .error f
      | .ok rest' => .ok ((p.1, { p.2 with content := c }) :: rest')

/-- Entry-point computation (link.rs:364-365): `symbols["_start"]` and
`section_address[..]` are BTreeMap indexing and panic when absent. -/
def computeEntry (addrs : List (String × Nat)) (syms : SymMap) :
    Except LinkFailure Nat :=
  match lookupA syms "_start" with
  | none => .error (.crash "no entry found for key")
  | some sym =>
    match lookupA addrs sym.sectionName with
    | none => .error (.crash "no entry found for key")
    | some a => .ok (a + sym.offset)

/-- Per-symbol address resolution performed while the symbol table is
written (link.rs:423-434); again BTreeMap indexing, panics on a symbol
whose defining section is not an output section. -/
def resolveSymbolAddrs (addrs : List (String × Nat)) :
    SymMap → Except LinkFailure (List (String × Nat))
  | [] => .ok []
  | p :: rest =>
    match lookupA addrs p.2.sectionName with
    | none => .error (.crash "no entry found for key")
    | some a =>
      match resolveSymbolAddrs addrs rest with
      | .error f => .error f
      | .ok r => .ok ((p.1, a + p.2.offset) :: r)

/-- The fully assembled output image: patched output sections with
their file offsets, the symbol table, the virtual-address map, the
entry point written into `e_entry` of the file header, and the symbol
addresses written into the output symbol table. -/
structure LinkOutput where
  sections : SecMap
  symbols : SymMap
  addresses : List (String × Nat)
  entry : Nat
  symbolAddresses : List (String × Nat)
deriving DecidableEq, Repr

/-- The core pipeline of `link` after option handling: parse and merge,
lay out, compute addresses, patch relocations, compute the entry point,
resolve the symbol addresses for the symbol table. -/
def linkCore (items : List InputItem) : Except LinkFailure LinkOutput :=
  match mergeAll items with
  | .error f => .error f
  | .ok st =>
    match relocateAll (sectionAddresses (layoutSections headersLen st.1).1) st.2
        (layoutSections headersLen st.1).1 with
    | .error f => .error f
    | .ok secs2 =>
      match computeEntry (sectionAddresses (layoutSections headersLen st.1).1) st.2 with
      | .error f => .error f
      | .ok entry =>
        match resolveSymbolAddrs (sectionAddresses (layoutSections headersLen st.1).1) st.2 with
        | .error f => .error f
        | .ok symAddrs =>
          .ok { sections := secs2, symbols := st.2,
                addresses := sectionAddresses (layoutSections headersLen st.1).1,
                entry := entry, symbolAddresses := symAddrs }

/-- Observable file-system side effects of `link`. -/
inductive Event where
  | fsWrite (path : String) (out : LinkOutput)
  | setPermissions (path : String) (mode : Nat)
deriving DecidableEq, Repr

/-- `link`, with its file-system effects made explicit: the output file
is written (then chmod-ed to 0o755) only after the whole pipeline has
succeeded (link.rs:442-450); any earlier failure produces no effect on
the output path. -/
def link (items : List InputItem) (output : String) :
    List Event × Except LinkFailure Unit :=
  match linkCore items with
  | .error f => ([], .error f)
  | .ok out => ([.fsWrite output out, .setPermissions output 0o755], .ok ())

/-! Specification-side definitions

These restate, in the spec's own words, the quantities the claims
compare against the implementation. -/

/-- Spec side (C1): the concatenated data of the non-empty, non-excluded
sections named `name` in a section list, in section order. -/
def sectionsContribution (name : String) : List InputSection → List Nat
  | [] => []
  | s :: rest =>
    (if s.name = name ∧ s.data ≠ [] ∧ included s.name = true then s.data else [])
      ++ sectionsContribution name rest

/-- Spec side (C1): one object's contribution to output section `name`. -/
def objectContribution (o : ElfObject) (name : String) : List Nat :=
  sectionsContribution name o.sections

/-- Spec side (C1): the concatenation, in input-file order, of the data
of all non-excluded non-empty input sections named `name`. -/
def specContent (name : String) : List InputItem → List Nat
  | [] => []
  | .object o :: rest => objectContribution o name ++ specContent name rest
  | _ :: rest => specContent name rest

/-- Spec side (C1): the sum of the sizes of the input sections merged
into output section `name`. -/
def specSizeSum (name : String) : List InputItem → Nat
  | [] => 0
  | .object o :: rest => (objectContribution o name).length + specSizeSum name rest
  | _ :: rest => specSizeSum name rest

/-- The content of output section `name` in a section map (the empty
byte string when there is no such section). -/
def contentAt (secs : SecMap) (name : String) : List Nat :=
  ((lookupA secs name).map (fun s => s.content)).getD []

/-- The content length of output section `name` (0 when absent). -/
def lenAt (secs : SecMap) (name : String) : Nat :=
  (contentAt secs name).length

/-- Spec side (C9): every relocation of every input section stays within
that section's data, counting `size_bits / 8` patched bytes. -/
def objRelocsInBounds (o : ElfObject) : Prop :=
  ∀ s ∈ o.sections, ∀ e ∈ s.relocations, e.1 + e.2.size / 8 ≤ s.data.length

/-- Spec side (C9): all objects of the input list have in-bounds
relocations. -/
def inputRelocsInBounds (items : List InputItem) : Prop :=
  ∀ o, InputItem.object o ∈ items → objRelocsInBounds o

/-- The merged-relocation bounds invariant of the spec (C9), as a
decidable check over a section map. -/
def relocsInBounds (secs : SecMap) : Bool :=
  secs.all (fun p => p.2.relocations.all (fun r => r.offset + r.size / 8 ≤ p.2.content.length))

/-- The same merged-relocation bounds invariant, propositionally. -/
def relocsBoundOk (secs : SecMap) : Prop :=
  ∀ p ∈ secs, ∀ r ∈ p.2.relocations, r.offset + r.size / 8 ≤ p.2.content.length

/-- Whether a pipeline result is an error value returned to the caller
(as opposed to success or a panic). -/
def isFatalError {α : Type} : Except LinkFailure α → Bool
  | .error (.fatal _) => true
  | _ => false

/-- Keys of an association map are strictly sorted (the iteration order
of `BTreeMap<String, _>`). -/
def keysSorted {α : Type} (l : List (String × α)) : Prop :=
  l.Pairwise (fun p q => p.1 < q.1)

/-! Concrete inputs used by witnesses and counterexamples -/

/-- The null section at index 0 of an ELF section table. -/
def nullSection : InputSection := { name := "", data := [], shFlags := 0, relocations := [] }

/-- The null symbol at index 0 of an ELF symbol table. -/
def nullSymbol : InputSymbol := { name := "", kind := .otherSymKind, sect := .undef, address := 0 }

/-- The `.text` section of the first example object: eight bytes with
an R_X86_64_32S relocation at offset 4 against the `.rodata` section
symbol (symbol index 2), addend 2. -/
def objAText : InputSection :=
  { name := ".text", data := [144, 144, 144, 144, 144, 144, 144, 144], shFlags := 6,
    relocations := [(4, { kind := .absolute, encoding := .x86Signed, size := 32,
                          addend := 2, target := .symbol 2 })] }

/-- The `.rodata` section of the first example object. -/
def objARodata : InputSection :=
  { name := ".rodata", data := [1, 2, 3, 4], shFlags := 2, relocations := [] }

/-- The `.rodata` section symbol of the first example object. -/
def objARodataSym : InputSymbol :=
  { name := "rodata_sym", kind := .sectionKind, sect := .inSection 2, address := 0 }

/-- First example object: a `.text` with an R_X86_64_32S relocation
against the `.rodata` section symbol, a `.rodata`, `_start` at `.text`
offset 0. -/
def objA : ElfObject :=
  { sections := [nullSection, objAText, objARodata],
    symbols := [nullSymbol,
      { name := "_start", kind := .otherSymKind, sect := .inSection 1, address := 0 },
      objARodataSym] }

/-- Second example object: appends to both `.text` and `.rodata`; its
`.text` carries an R_X86_64_PLT32 relocation against `_start` (which it
imports as undefined). -/
def objB : ElfObject :=
  { sections := [nullSection,
      { name := ".text", data := [232, 0, 0, 0, 0], shFlags := 6,
        relocations := [(1, { kind := .pltRelative, encoding := .generic, size := 32,
                              addend := -4, target := .symbol 1 })] },
      { name := ".rodata", data := [9, 9], shFlags := 2, relocations := [] }],
    symbols := [nullSymbol,
      { name := "_start", kind := .otherSymKind, sect := .undef, address := 0 },
      { name := "foo", kind := .otherSymKind, sect := .inSection 1, address := 0 }] }

/-- The two-object example input. -/
def exItems : List InputItem := [.object objA, .object objB]

/-- The merged state of `exItems`. -/
def exMerged : SecMap × SymMap :=
  match mergeAll exItems with
  | .ok st => st
  | .error _ => ([], [])

/-- The full pipeline output for `exItems`. -/
def exOut : LinkOutput :=
  match linkCore exItems with
  | .ok out => out
  | .error _ => { sections := [], symbols := [], addresses := [], entry := 0,
                  symbolAddresses := [] }

/-- An input whose only object defines `main` but no `_start`. -/
def exNoStart : List InputItem :=
  [.object
    { sections := [nullSection,
        { name := ".text", data := [144], shFlags := 6, relocations := [] }],
      symbols := [nullSymbol,
        { name := "main", kind := .otherSymKind, sect := .inSection 1, address := 0 }] }]

/-- An accepted input carrying a relocation whose offset (100) lies far
outside its 4-byte section. -/
def exOOB : List InputItem :=
  [.object
    { sections := [nullSection,
        { name := ".text", data := [1, 2, 3, 4], shFlags := 6,
          relocations := [(100, { kind := .absolute, encoding := .x86Signed, size := 32,
                                  addend := 0, target := .symbol 1 })] }],
      symbols := [nullSymbol,
        { name := "_start", kind := .otherSymKind, sect := .inSection 1, address := 0 }] }]

/-- The merged state of `exOOB`. -/
def exMergedOOB : SecMap × SymMap :=
  match mergeAll exOOB with
  | .ok st => st
  | .error _ => ([], [])

/-- The merged state of object `objA` alone (from empty maps). -/
def exMergedA : SecMap × SymMap :=
  match mergeObject ([], []) objA with
  | .ok st => st
  | .error _ => ([], [])

/-- The resolved `_start` symbol of the two-object example. -/
def exStartSym : Symbol := { sectionName := ".text", offset := 0 }

/-- A small virtual-address map used by the relocation-engine witnesses. -/
def exAddrs : List (String × Nat) := [(".text", 4198400)]

/-- A small symbol map used by the PLT32 witness. -/
def exSyms : SymMap := [("_start", { sectionName := ".text", offset := 0 })]

/-- A concrete R_X86_64_32S relocation used by the C3 witness. -/
def exR32 : Relocation :=
  { offset := 4, kind := .absolute, encoding := .x86Signed, size := 32,
    addend := 2, target := .section ".text" 0 }

/-- A concrete R_X86_64_PLT32 relocation used by the C4 witness. -/
def exRPlt : Relocation :=
  { offset := 1, kind := .pltRelative, encoding := .generic, size := 32,
    addend := -4, target := .symbol "_start" }

/-- Eight zero bytes of section content for the engine witnesses. -/
def exContent : List Nat := [0, 0, 0, 0, 0, 0, 0, 0]

/-- A `Section`-kind symbol whose defining-section index (7) is out of
range. -/
def badSectSym : InputSymbol :=
  { name := "s", kind := .sectionKind, sect := .inSection 7, address := 0 }

/-- A defined non-section symbol whose section index (9) is out of
range. -/
def badOffSym : InputSymbol :=
  { name := "t", kind := .otherSymKind, sect := .inSection 9, address := 0 }

/-- An object with only the null section, carrying the two bad-index
symbols above. -/
def objNoSects : ElfObject :=
  { sections := [nullSection], symbols := [nullSymbol, badSectSym, badOffSym] }

/-- An input relocation against an out-of-range symbol index (99). -/
def exIrBadIdx : InputReloc :=
  { kind := .absolute, encoding := .x86Signed, size := 32, addend := 0, target := .symbol 99 }

/-- An input relocation against symbol index 1 (`badSectSym` in
`objNoSects`). -/
def exIrBadSect : InputReloc :=
  { kind := .absolute, encoding := .x86Signed, size := 32, addend := 0, target := .symbol 1 }

/-- An input relocation whose raw target is not a symbol. -/
def exIrOther : InputReloc :=
  { kind := .absolute, encoding := .x86Signed, size := 32, addend := 0,
    target := .otherTarget }

/-- A merged relocation with a kind/encoding/size combination the
engine does not implement (Absolute with Generic encoding). -/
def exRUnsupported : Relocation :=
  { offset := 0, kind := .absolute, encoding := .generic, size := 32, addend := 0,
    target := .section ".text" 0 }

/-! Association-map lemmas -/

instance {ε α : Type} [DecidableEq ε] [DecidableEq α] : DecidableEq (Except ε α) := fun x y =>
  match x, y with
  | .error a, .error b =>
    if h : a = b then .isTrue (by rw [h]) else .isFalse (by intro hc; cases hc; exact h rfl)
  | .error _, .ok _ => .isFalse (by intro hc; cases hc)
  | .ok _, .error _ => .isFalse (by intro hc; cases hc)
  | .ok a, .ok b =>
    if h : a = b then .isTrue (by rw [h]) else .isFalse (by intro hc; cases hc; exact h rfl)

theorem charListLt_iff :
    ∀ as bs : List Char, charListLt as bs = true ↔ List.Lex (· < ·) as bs := by
  intro as
  induction as with
  | nil =>
    intro bs
    cases bs with
    | nil =>
      constructor
      · intro h; cases h
      · intro h; cases h
    | cons b bs =>
      constructor
      · intro _; exact List.Lex.nil
      · intro _; rfl
  | cons a as ih =>
    intro bs
    cases bs with
    | nil =>
      constructor
      · intro h; cases h
      · intro h; cases h
    | cons b bs =>
      simp only [charListLt, Bool.or_eq_true, Bool.and_eq_true, decide_eq_true_eq]
      constructor
      · rintro (hab | ⟨hab, hrec⟩)
        · exact List.Lex.rel hab
        · subst hab
          exact List.Lex.cons ((ih bs).mp hrec)
      · intro h
        cases h with
        | cons h3 => exact Or.inr ⟨rfl, (ih bs).mpr h3⟩
        | rel hab => exact Or.inl hab

theorem strLt_iff (s t : String) : strLt s t = true ↔ s < t := by
  rw [String.lt_iff_toList_lt]
  exact charListLt_iff s.data t.data

theorem lookupA_insertA {α : Type} (k : String) (v : α) (l : List (String × α)) (n : String) :
    lookupA (insertA k v l) n = if n = k then some v else lookupA l n := by
  induction l with
  | nil => by_cases h : n = k <;> simp [insertA, lookupA, h]
  | cons p rest ih =>
    obtain ⟨pk, pv⟩ := p
    by_cases h1 : strLt k pk
    · by_cases h : n = k <;> simp [insertA, lookupA, h1, h]
    · by_cases h2 : k = pk
      · subst h2
        by_cases h : n = k <;> simp [insertA, lookupA, h1, h]
      · by_cases h : n = pk
        · have hnk : ¬n = k := fun he => h2 (he.symm.trans h)
          have h2' : ¬pk = k := fun he => h2 he.symm
          simp [insertA, lookupA, h1, h2, h, hnk, h2']
        · simp [insertA, lookupA, h1, h2, h, ih]

theorem mem_insertA {α : Type} {k : String} {v : α} {l : List (String × α)}
    {q : String × α} (h : q ∈ insertA k v l) : q = (k, v) ∨ q ∈ l := by
  induction l with
  | nil => simpa [insertA] using h
  | cons p rest ih =>
    by_cases h1 : strLt k p.1
    · simp only [insertA, if_pos h1, List.mem_cons] at h
      rcases h with h | h | h
      · exact Or.inl h
      · exact Or.inr (by simp [h])
      · exact Or.inr (by simp [h])
    · by_cases h2 : k = p.1
      · simp only [insertA, if_neg h1, if_pos h2, List.mem_cons] at h
        rcases h with h | h
        · exact Or.inl h
        · exact Or.inr (by simp [h])
      · simp only [insertA, if_neg h1, if_neg h2, List.mem_cons] at h
        rcases h with h | h
        · exact Or.inr (by simp [h])
        · rcases ih h with h | h
          · exact Or.inl h
          · exact Or.inr (by simp [h])

theorem getSize_sectionSizes (secs : SecMap) (n : String) :
    getSize (sectionSizes secs) n = lenAt secs n := by
  induction secs with
  | nil => rfl
  | cons p rest ih =>
    by_cases h : n = p.1
    · simp [getSize, sectionSizes, lookupA, lenAt, contentAt, h]
    · simpa [getSize, sectionSizes, lookupA, lenAt, contentAt, h] using ih

/-! Content concatenation (C1) -/

theorem contentAt_insert_step (secs : SecMap) (s : InputSection) (relocs : List Relocation)
    (n : String) :
    contentAt (insertA s.name
      { name := s.name,
        content := ((lookupA secs s.name).getD {}).content ++ s.data,
        offset := ((lookupA secs s.name).getD {}).offset,
        relocations := relocs,
        isExecutable := ((lookupA secs s.name).getD {}).isExecutable
          || decide (Nat.land s.shFlags 4 ≠ 0) } secs) n
      = if n = s.name then contentAt secs s.name ++ s.data else contentAt secs n := by
  unfold contentAt
  rw [lookupA_insertA]
  by_cases h : n = s.name
  · cases hl : lookupA secs s.name <;> simp [h, hl]
  · simp [h]

theorem mergeSection_content {sizes : List (String × Nat)} {obj : ElfObject}
    {secs secs' : SecMap} {s : InputSection}
    (h : mergeSection sizes obj secs s = .ok secs') (n : String) :
    contentAt secs' n = contentAt secs n ++
      (if s.name = n ∧ s.data ≠ [] ∧ included s.name = true then s.data else []) := by
  unfold mergeSection at h
  by_cases hd : s.data = []
  · simp only [if_pos hd] at h
    cases h
    simp [hd]
  · simp only [if_neg hd] at h
    by_cases hinc : included s.name
    · simp only [if_pos hinc] at h
      cases hr : rebaseRelocs sizes obj s.name s.relocations with
      | error f => rw [hr] at h; cases h
      | ok rs =>
        rw [hr] at h
        cases h
        rw [contentAt_insert_step]
        by_cases hn : n = s.name
        · simp [hn, hd, hinc]
        · have : ¬(s.name = n) := fun he => hn he.symm
          simp [hn, this]
    · simp only [if_neg hinc] at h
      cases h
      simp [hinc]

theorem mergeSections_content {sizes : List (String × Nat)} {obj : ElfObject} :
    ∀ {ss : List InputSection} {secs secs' : SecMap},
    mergeSections sizes obj secs ss = .ok secs' → ∀ n,
    contentAt secs' n = contentAt secs n ++ sectionsContribution n ss := by
  intro ss
  induction ss with
  | nil =>
    intro secs secs' h n
    unfold mergeSections at h
    cases h
    simp [sectionsContribution]
  | cons s rest ih =>
    intro secs secs' h n
    unfold mergeSections at h
    cases hs : mergeSection sizes obj secs s with
    | error f => rw [hs] at h; cases h
    | ok secs1 =>
      rw [hs] at h
      have h1 := mergeSection_content hs n
      have h2 := ih h n
      rw [h2, h1, List.append_assoc]
      simp [sectionsContribution]

theorem mergeObject_ok_inv {st : SecMap × SymMap} {obj : ElfObject}
    {st' : SecMap × SymMap} (h : mergeObject st obj = .ok st') :
    mergeSections (sectionSizes st.1) obj st.1 obj.sections = .ok st'.1 ∧
    addSymbols (sectionSizes st.1) obj st.2 (obj.symbols.drop 1) = .ok st'.2 := by
  unfold mergeObject at h
  cases hs : mergeSections (sectionSizes st.1) obj st.1 obj.sections with
  | error f => rw [hs] at h; cases h
  | ok secs' =>
    rw [hs] at h
    cases ha : addSymbols (sectionSizes st.1) obj st.2 (obj.symbols.drop 1) with
    | error f => rw [ha] at h; cases h
    | ok syms' =>
      rw [ha] at h
      cases h
      exact ⟨rfl, rfl⟩

theorem mergeList_content :
    ∀ {items : List InputItem} {st st' : SecMap × SymMap},
    mergeList st items = .ok st' → ∀ n,
    contentAt st'.1 n = contentAt st.1 n ++ specContent n items := by
  intro items
  induction items with
  | nil =>
    intro st st' h n
    unfold mergeList at h
    cases h
    simp [specContent]
  | cons it rest ih =>
    intro st st' h n
    unfold mergeList at h
    cases hi : mergeItem st it with
    | error f => rw [hi] at h; cases h
    | ok st1 =>
      rw [hi] at h
      have h2 := ih h n
      cases it with
      | object o =>
        have h1 := (mergeObject_ok_inv hi).1
        have h3 := mergeSections_content h1 n
        rw [h2, h3, List.append_assoc]
        simp [specContent, objectContribution]
      | archive =>
        unfold mergeItem at hi
        cases hi
        rw [h2]
        simp [specContent]
      | invalid =>
        unfold mergeItem at hi
        cases hi

theorem specContent_length (n : String) :
    ∀ items : List InputItem, (specContent n items).length = specSizeSum n items := by
  intro items
  induction items with
  | nil => simp [specContent, specSizeSum]
  | cons it rest ih =>
    cases it <;> simp [specContent, specSizeSum, ih]

/-! Relocation bookkeeping lemmas (towards C2 and C9) -/

theorem lookupA_mem {α : Type} : ∀ {l : List (String × α)} {n : String} {v : α},
    lookupA l n = some v → (n, v) ∈ l := by
  intro l
  induction l with
  | nil => intro n v h; cases h
  | cons p rest ih =>
    intro n v h
    unfold lookupA at h
    by_cases hn : n = p.1
    · rw [if_pos hn] at h
      cases h
      subst hn
      simp
    · rw [if_neg hn] at h
      exact List.mem_cons_of_mem _ (ih h)

theorem rebaseReloc_fields {sizes : List (String × Nat)} {obj : ElfObject} {name : String}
    {e : Nat × InputReloc} {r : Relocation}
    (h : rebaseReloc sizes obj name e = .ok r) :
    r.offset = e.1 + getSize sizes name ∧ r.size = e.2.size := by
  unfold rebaseReloc at h
  split at h
  · split at h
    · cases h
    · split at h
      · split at h
        · split at h
          · cases h
          · cases h
            exact ⟨rfl, rfl⟩
        · cases h
      · cases h
        exact ⟨rfl, rfl⟩
  · cases h

theorem rebaseRelocs_mem_ok {sizes : List (String × Nat)} {obj : ElfObject} {name : String} :
    ∀ {rs : List (Nat × InputReloc)} {rs' : List Relocation} {e : Nat × InputReloc}
    {r : Relocation},
    rebaseRelocs sizes obj name rs = .ok rs' → e ∈ rs →
    rebaseReloc sizes obj name e = .ok r → r ∈ rs' := by
  intro rs
  induction rs with
  | nil => intro rs' e r h he hr; simp at he
  | cons e0 rest ih =>
    intro rs' e r h he hr
    unfold rebaseRelocs at h
    cases h0 : rebaseReloc sizes obj name e0 with
    | error f => rw [h0] at h; cases h
    | ok r0 =>
      rw [h0] at h
      cases h1 : rebaseRelocs sizes obj name rest with
      | error f => rw [h1] at h; cases h
      | ok rs0 =>
        rw [h1] at h
        cases h
        rcases List.mem_cons.mp he with he | he
        · subst he
          rw [h0] at hr
          cases hr
          exact List.mem_cons_self _ _
        · exact List.mem_cons_of_mem _ (ih h1 he hr)

theorem rebaseRelocs_ok_of_mem {sizes : List (String × Nat)} {obj : ElfObject} {name : String} :
    ∀ {rs : List (Nat × InputReloc)} {rs' : List Relocation} {r : Relocation},
    rebaseRelocs sizes obj name rs = .ok rs' → r ∈ rs' →
    ∃ e ∈ rs, rebaseReloc sizes obj name e = .ok r := by
  intro rs
  induction rs with
  | nil =>
    intro rs' r h hr
    unfold rebaseRelocs at h
    cases h
    simp at hr
  | cons e0 rest ih =>
    intro rs' r h hr
    unfold rebaseRelocs at h
    cases h0 : rebaseReloc sizes obj name e0 with
    | error f => rw [h0] at h; cases h
    | ok r0 =>
      rw [h0] at h
      cases h1 : rebaseRelocs sizes obj name rest with
      | error f => rw [h1] at h; cases h
      | ok rs0 =>
        rw [h1] at h
        cases h
        rcases List.mem_cons.mp hr with hr | hr
        · subst hr
          exact ⟨e0, List.mem_cons_self _ _, h0⟩
        · obtain ⟨e, he, hre⟩ := ih h1 hr
          exact ⟨e, List.mem_cons_of_mem _ he, hre⟩

theorem mergeSection_ok_included {sizes : List (String × Nat)} {obj : ElfObject}
    {secs secs' : SecMap} {s : InputSection}
    (hd : s.data ≠ []) (hinc : included s.name = true)
    (h : mergeSection sizes obj secs s = .ok secs') :
    ∃ rs, rebaseRelocs sizes obj s.name s.relocations = .ok rs ∧
      secs' = insertA s.name
        { name := s.name,
          content := ((lookupA secs s.name).getD {}).content ++ s.data,
          offset := ((lookupA secs s.name).getD {}).offset,
          relocations := ((lookupA secs s.name).getD {}).relocations ++ rs,
          isExecutable := ((lookupA secs s.name).getD {}).isExecutable
            || decide (Nat.land s.shFlags 4 ≠ 0) } secs := by
  unfold mergeSection at h
  rw [if_neg hd] at h
  rw [if_pos hinc] at h
  cases hr : rebaseRelocs sizes obj s.name s.relocations with
  | error f => rw [hr] at h; cases h
  | ok rs =>
    rw [hr] at h
    cases h
    exact ⟨rs, rfl, rfl⟩

theorem mergeSection_skip {sizes : List (String × Nat)} {obj : ElfObject}
    {secs secs' : SecMap} {s : InputSection}
    (hcond : s.data = [] ∨ included s.name = false)
    (h : mergeSection sizes obj secs s = .ok secs') : secs' = secs := by
  unfold mergeSection at h
  rcases hcond with hc | hc
  · rw [if_pos hc] at h
    cases h
    rfl
  · by_cases hd : s.data = []
    · rw [if_pos hd] at h
      cases h
      rfl
    · rw [if_neg hd] at h
      rw [hc] at h
      simp at h
      rw [h]

/-- Preservation: a relocation already recorded for output section `n`
survives any further `mergeSection` step (content and relocations only
grow). -/
theorem mergeSection_reloc_pres {sizes : List (String × Nat)} {obj : ElfObject}
    {secs secs' : SecMap} {s : InputSection} {n : String} {out : OutputSection}
    {r : Relocation}
    (h : mergeSection sizes obj secs s = .ok secs')
    (hl : lookupA secs n = some out) (hr : r ∈ out.relocations) :
    ∃ out', lookupA secs' n = some out' ∧ r ∈ out'.relocations := by
  by_cases hd : s.data = []
  · rw [mergeSection_skip (Or.inl hd) h]
    exact ⟨out, hl, hr⟩
  · by_cases hinc : included s.name
    · obtain ⟨rs, _, hs'⟩ := mergeSection_ok_included hd (by simpa using hinc) h
      subst hs'
      rw [lookupA_insertA]
      by_cases hn : n = s.name
      · refine ⟨_, if_pos hn, ?_⟩
        have : ((lookupA secs s.name).getD {}) = out := by
          rw [← hn, hl]
          rfl
        rw [this]
        exact List.mem_append_left _ hr
      · exact ⟨out, by rw [if_neg hn]; exact hl, hr⟩
    · rw [mergeSection_skip (Or.inr (by simpa using hinc)) h]
      exact ⟨out, hl, hr⟩

theorem mergeSections_reloc_pres {sizes : List (String × Nat)} {obj : ElfObject} :
    ∀ {ss : List InputSection} {secs secs' : SecMap} {n : String} {out : OutputSection}
    {r : Relocation},
    mergeSections sizes obj secs ss = .ok secs' →
    lookupA secs n = some out → r ∈ out.relocations →
    ∃ out', lookupA secs' n = some out' ∧ r ∈ out'.relocations := by
  intro ss
  induction ss with
  | nil =>
    intro secs secs' n out r h hl hr
    unfold mergeSections at h
    cases h
    exact ⟨out, hl, hr⟩
  | cons s rest ih =>
    intro secs secs' n out r h hl hr
    unfold mergeSections at h
    cases hs : mergeSection sizes obj secs s with
    | error f => rw [hs] at h; cases h
    | ok secs1 =>
      rw [hs] at h
      obtain ⟨out1, hl1, hr1⟩ := mergeSection_reloc_pres hs hl hr
      exact ih h hl1 hr1

/-- The key C2 lemma: merging the sections of one object records, for
every relocation of an included non-empty input section, its rebased
form in the matching output section. -/
theorem mergeSections_reloc_mem {sizes : List (String × Nat)} {obj : ElfObject} :
    ∀ {ss : List InputSection} {secs secs' : SecMap} {s : InputSection}
    {e : Nat × InputReloc} {r : Relocation},
    mergeSections sizes obj secs ss = .ok secs' → s ∈ ss → s.data ≠ [] →
    included s.name = true → e ∈ s.relocations →
    rebaseReloc sizes obj s.name e = .ok r →
    ∃ out, lookupA secs' s.name = some out ∧ r ∈ out.relocations := by
  intro ss
  induction ss with
  | nil => intro secs secs' s e r h hm; simp at hm
  | cons s0 rest ih =>
    intro secs secs' s e r h hm hd hinc he hr
    unfold mergeSections at h
    cases hs : mergeSection sizes obj secs s0 with
    | error f => rw [hs] at h; cases h
    | ok secs1 =>
      rw [hs] at h
      rcases List.mem_cons.mp hm with hm | hm
      · subst hm
        obtain ⟨rs, hrs, hs'⟩ := mergeSection_ok_included hd hinc hs
        subst hs'
        have hrmem : r ∈ ((lookupA secs s.name).getD {}).relocations ++ rs :=
          List.mem_append_right _ (rebaseRelocs_mem_ok hrs he hr)
        have hl1 := lookupA_insertA s.name
          { name := s.name,
            content := ((lookupA secs s.name).getD {}).content ++ s.data,
            offset := ((lookupA secs s.name).getD {}).offset,
            relocations := ((lookupA secs s.name).getD {}).relocations ++ rs,
            isExecutable := ((lookupA secs s.name).getD {}).isExecutable
              || decide (Nat.land s.shFlags 4 ≠ 0) } secs s.name
        rw [if_pos rfl] at hl1
        exact mergeSections_reloc_pres h hl1 hrmem
      · exact ih h hm hd hinc he hr

/-! Relocation bounds (C9) -/

theorem relocsInBounds_iff (secs : SecMap) :
    relocsInBounds secs = true ↔ relocsBoundOk secs := by
  unfold relocsInBounds relocsBoundOk
  simp [List.all_eq_true]

theorem lenAt_lookup (secs : SecMap) (n : String) :
    lenAt secs n = ((lookupA secs n).getD {}).content.length := by
  unfold lenAt contentAt
  cases lookupA secs n <;> simp [OutputSection.content]

theorem mergeSection_len_mono {sizes : List (String × Nat)} {obj : ElfObject}
    {secs secs' : SecMap} {s : InputSection}
    (h : mergeSection sizes obj secs s = .ok secs') (n : String) :
    lenAt secs n ≤ lenAt secs' n := by
  unfold lenAt
  rw [mergeSection_content h n]
  simp

theorem mergeSection_bounds {sizes : List (String × Nat)} {obj : ElfObject}
    {secs secs' : SecMap} {s : InputSection}
    (h : mergeSection sizes obj secs s = .ok secs')
    (hsnap : ∀ n, getSize sizes n ≤ lenAt secs n)
    (hin : ∀ e ∈ s.relocations, e.1 + e.2.size / 8 ≤ s.data.length)
    (hb : relocsBoundOk secs) : relocsBoundOk secs' := by
  by_cases hd : s.data = []
  · rw [mergeSection_skip (Or.inl hd) h]; exact hb
  · by_cases hinc : included s.name
    · obtain ⟨rs, hrs, hs'⟩ := mergeSection_ok_included hd (by simpa using hinc) h
      subst hs'
      intro p hp r hr
      rcases mem_insertA hp with hp | hp
      · subst hp
        simp only at hr ⊢
        rcases List.mem_append.mp hr with hr | hr
        · -- a relocation already present for this section
          have hprev : ∀ r' ∈ ((lookupA secs s.name).getD {}).relocations,
              r'.offset + r'.size / 8 ≤ ((lookupA secs s.name).getD {}).content.length := by
            cases hl : lookupA secs s.name with
            | none => intro r' hr'; simp [hl] at hr'
            | some out =>
              intro r' hr'
              simpa [hl] using hb (s.name, out) (lookupA_mem hl) r' (by simpa [hl] using hr')
          calc r.offset + r.size / 8
              ≤ ((lookupA secs s.name).getD {}).content.length := hprev r hr
            _ ≤ (((lookupA secs s.name).getD {}).content ++ s.data).length := by simp
        · obtain ⟨e, he, hre⟩ := rebaseRelocs_ok_of_mem hrs hr
          obtain ⟨ho, hsz⟩ := rebaseReloc_fields hre
          rw [ho, hsz]
          have h1 : e.1 + e.2.size / 8 ≤ s.data.length := hin e he
          have h2 : getSize sizes s.name ≤ ((lookupA secs s.name).getD {}).content.length := by
            rw [← lenAt_lookup]
            exact hsnap s.name
          simp only [List.length_append]
          omega
      · exact hb p hp r hr
    · rw [mergeSection_skip (Or.inr (by simpa using hinc)) h]; exact hb

theorem mergeSections_bounds {sizes : List (String × Nat)} {obj : ElfObject} :
    ∀ {ss : List InputSection} {secs secs' : SecMap},
    mergeSections sizes obj secs ss = .ok secs' →
    (∀ n, getSize sizes n ≤ lenAt secs n) →
    (∀ s ∈ ss, ∀ e ∈ s.relocations, e.1 + e.2.size / 8 ≤ s.data.length) →
    relocsBoundOk secs → relocsBoundOk secs' := by
  intro ss
  induction ss with
  | nil =>
    intro secs secs' h hsnap hin hb
    unfold mergeSections at h
    cases h
    exact hb
  | cons s rest ih =>
    intro secs secs' h hsnap hin hb
    unfold mergeSections at h
    cases hs : mergeSection sizes obj secs s with
    | error f => rw [hs] at h; cases h
    | ok secs1 =>
      rw [hs] at h
      have hb1 := mergeSection_bounds hs hsnap (hin s (List.mem_cons_self _ _)) hb
      have hsnap1 : ∀ n, getSize sizes n ≤ lenAt secs1 n :=
        fun n => (hsnap n).trans (mergeSection_len_mono hs n)
      exact ih h hsnap1 (fun s' hs' => hin s' (List.mem_cons_of_mem _ hs')) hb1

theorem mergeList_bounds :
    ∀ {items : List InputItem} {st st' : SecMap × SymMap},
    mergeList st items = .ok st' → inputRelocsInBounds items →
    relocsBoundOk st.1 → relocsBoundOk st'.1 := by
  intro items
  induction items with
  | nil =>
    intro st st' h hin hb
    unfold mergeList at h
    cases h
    exact hb
  | cons it rest ih =>
    intro st st' h hin hb
    unfold mergeList at h
    cases hi : mergeItem st it with
    | error f => rw [hi] at h; cases h
    | ok st1 =>
      rw [hi] at h
      have hin1 : inputRelocsInBounds rest :=
        fun o ho => hin o (List.mem_cons_of_mem _ ho)
      cases it with
      | object o =>
        have h1 := (mergeObject_ok_inv hi).1
        have hsnap : ∀ n, getSize (sectionSizes st.1) n ≤ lenAt st.1 n :=
          fun n => le_of_eq (getSize_sectionSizes st.1 n)
        have ho := hin o (List.mem_cons_self _ _)
        exact ih h hin1 (mergeSections_bounds h1 hsnap ho hb)
      | archive =>
        unfold mergeItem at hi
        cases hi
        exact ih h hin1 hb
      | invalid =>
        unfold mergeItem at hi
        cases hi

/-! Layout lemmas (C5) -/

theorem reserveRange_sum (len pos : Nat) :
    (reserveRange len 4096 pos).1 + len = (reserveRange len 4096 pos).2 := by
  unfold reserveRange
  by_cases h : len = 0 <;> simp [h]

theorem reserveRange_pos_le (len pos : Nat) : pos ≤ (reserveRange len 4096 pos).1 := by
  unfold reserveRange alignTo
  by_cases h : len = 0
  · simp [h]
  · simp [h]
    omega

theorem layoutSections_pos_le :
    ∀ (ss : SecMap) (pos : Nat), pos ≤ (layoutSections pos ss).2 := by
  intro ss
  induction ss with
  | nil => intro pos; exact le_refl _
  | cons p rest ih =>
    intro pos
    calc pos ≤ (reserveRange p.2.content.length 4096 pos).1 := reserveRange_pos_le _ _
      _ ≤ (reserveRange p.2.content.length 4096 pos).2 := by
          rw [← reserveRange_sum]; omega
      _ ≤ _ := ih _

theorem layoutSections_get_bounds :
    ∀ {ss : SecMap} {pos i : Nat} {q : String × OutputSection},
    ((layoutSections pos ss).1)[i]? = some q →
    pos ≤ q.2.offset ∧ q.2.offset + q.2.content.length ≤ (layoutSections pos ss).2 := by
  intro ss
  induction ss with
  | nil => intro pos i q h; simp [layoutSections] at h
  | cons p rest ih =>
    intro pos i q h
    cases i with
    | zero =>
      simp only [layoutSections, List.getElem?_cons_zero, Option.some_inj] at h
      subst h
      refine ⟨reserveRange_pos_le _ _, ?_⟩
      simp only
      rw [reserveRange_sum]
      exact layoutSections_pos_le _ _
    | succ i' =>
      simp only [layoutSections, List.getElem?_cons_succ] at h
      obtain ⟨h1, h2⟩ := ih h
      refine ⟨?_, ?_⟩
      · calc pos ≤ (reserveRange p.2.content.length 4096 pos).1 := reserveRange_pos_le _ _
          _ ≤ (reserveRange p.2.content.length 4096 pos).2 := by
              rw [← reserveRange_sum]; omega
          _ ≤ q.2.offset := h1
      · simpa [layoutSections] using h2

theorem layoutSections_sep :
    ∀ {ss : SecMap} {pos i j : Nat} {p q : String × OutputSection},
    ((layoutSections pos ss).1)[i]? = some p →
    ((layoutSections pos ss).1)[j]? = some q → i < j →
    p.2.offset + p.2.content.length ≤ q.2.offset := by
  intro ss
  induction ss with
  | nil => intro pos i j p q h; simp [layoutSections] at h
  | cons hd rest ih =>
    intro pos i j p q hp hq hij
    cases i with
    | zero =>
      simp only [layoutSections, List.getElem?_cons_zero, Option.some_inj] at hp
      subst hp
      cases j with
      | zero => omega
      | succ j' =>
        simp only [layoutSections, List.getElem?_cons_succ] at hq
        have := (layoutSections_get_bounds hq).1
        simp only
        rw [reserveRange_sum]
        exact this
    | succ i' =>
      cases j with
      | zero => omega
      | succ j' =>
        simp only [layoutSections, List.getElem?_cons_succ] at hp hq
        exact ih hp hq (by omega)

theorem layoutSections_align :
    ∀ {ss : SecMap} {pos i : Nat} {q : String × OutputSection},
    (∀ p ∈ ss, p.2.content ≠ []) →
    ((layoutSections pos ss).1)[i]? = some q → q.2.offset % 4096 = 0 := by
  intro ss
  induction ss with
  | nil => intro pos i q _ h; simp [layoutSections] at h
  | cons p rest ih =>
    intro pos i q hne h
    cases i with
    | zero =>
      simp only [layoutSections, List.getElem?_cons_zero, Option.some_inj] at h
      subst h
      have hl : p.2.content.length ≠ 0 := by
        intro hc
        exact hne p (List.mem_cons_self _ _) (List.length_eq_zero.mp hc)
      simp only [reserveRange, if_neg hl]
      unfold alignTo
      omega
    | succ i' =>
      simp only [layoutSections, List.getElem?_cons_succ] at h
      exact ih (fun p' hp' => hne p' (List.mem_cons_of_mem _ hp')) h

theorem layoutSections_proj :
    ∀ (ss : SecMap) (pos : Nat),
    ((layoutSections pos ss).1).map (fun p => (p.1, p.2.content)) =
      ss.map (fun p => (p.1, p.2.content)) := by
  intro ss
  induction ss with
  | nil => intro pos; rfl
  | cons p rest ih => intro pos; simp [layoutSections, ih]

/-! Byte patching lemmas (C3, C4) -/

theorem toLeBytes4_length (v : Int) : (toLeBytes4 v).length = 4 := rfl

theorem toLeBytes4_get (v : Int) {i : Nat} (hi : i < 4) :
    (toLeBytes4 v)[i]? = some (leByte v i) := by
  interval_cases i <;> norm_num [toLeBytes4, leByte]

theorem patchBytes_length {content : List Nat} {off : Nat} {bs : List Nat}
    (h : off + bs.length ≤ content.length) :
    (patchBytes content off bs).length = content.length := by
  simp [patchBytes]
  omega

theorem patchBytes_get_inside {content : List Nat} {off : Nat} {bs : List Nat}
    (h : off + bs.length ≤ content.length) {i : Nat} (hi : i < bs.length) :
    (patchBytes content off bs)[off + i]? = bs[i]? := by
  unfold patchBytes
  have hlt : (content.take off).length = off := by simp; omega
  rw [List.getElem?_append_left (by simp [hlt]; omega)]
  rw [List.getElem?_append_right (by omega), hlt]
  congr 1
  omega

theorem patchBytes_get_outside {content : List Nat} {off : Nat} {bs : List Nat}
    (h : off + bs.length ≤ content.length) {j : Nat}
    (hj : j < off ∨ off + bs.length ≤ j) :
    (patchBytes content off bs)[j]? = content[j]? := by
  unfold patchBytes
  have hlt : (content.take off).length = off := by simp; omega
  rcases hj with hj | hj
  · rw [List.getElem?_append_left (by simp [hlt]; omega)]
    rw [List.getElem?_append_left (by omega)]
    rw [List.getElem?_take]
    rw [if_pos hj]
  · rw [List.getElem?_append_right (by simp [hlt]; omega)]
    rw [List.getElem?_drop]
    congr 1
    simp [hlt]
    omega

/-! Relocation engine preservation (towards C5, C8) -/

theorem applyReloc_length {addrs : List (String × Nat)} {syms : SymMap} {secOffset : Nat}
    {content : List Nat} {r : Relocation} {c : List Nat}
    (h : applyReloc addrs syms secOffset content r = .ok c) :
    c.length = content.length := by
  unfold applyReloc at h
  cases ht : resolveTarget addrs syms r.target with
  | error f => rw [ht] at h; cases h
  | ok t =>
    simp only [ht] at h
    split at h
    · split at h
      · cases h
        have hb : r.offset + 4 ≤ content.length := by assumption
        exact patchBytes_length (by simpa [toLeBytes4_length] using hb)
      · cases h
    · split at h
      · cases h
        have hb : r.offset + 4 ≤ content.length := by assumption
        exact patchBytes_length (by simpa [toLeBytes4_length] using hb)
      · cases h
    · cases h

theorem applyRelocs_length {addrs : List (String × Nat)} {syms : SymMap} {secOffset : Nat} :
    ∀ {rs : List Relocation} {content c : List Nat},
    applyRelocs addrs syms secOffset content rs = .ok c →
    c.length = content.length := by
  intro rs
  induction rs with
  | nil =>
    intro content c h
    unfold applyRelocs at h
    cases h
    rfl
  | cons r rest ih =>
    intro content c h
    unfold applyRelocs at h
    cases h0 : applyReloc addrs syms secOffset content r with
    | error f => rw [h0] at h; cases h
    | ok c1 =>
      rw [h0] at h
      exact (ih h).trans (applyReloc_length h0)

theorem relocateAll_proj {addrs : List (String × Nat)} {syms : SymMap} :
    ∀ {secs secs' : SecMap},
    relocateAll addrs syms secs = .ok secs' →
    secs'.map (fun p => (p.1, p.2.offset, p.2.content.length)) =
      secs.map (fun p => (p.1, p.2.offset, p.2.content.length)) := by
  intro secs
  induction secs with
  | nil =>
    intro secs' h
    unfold relocateAll at h
    cases h
    rfl
  | cons p rest ih =>
    intro secs' h
    unfold relocateAll at h
    cases h0 : applyRelocs addrs syms p.2.offset p.2.content p.2.relocations with
    | error f => rw [h0] at h; cases h
    | ok c =>
      rw [h0] at h
      cases h1 : relocateAll addrs syms rest with
      | error f => rw [h1] at h; cases h
      | ok rest' =>
        rw [h1] at h
        cases h
        simp [ih h1, applyRelocs_length h0]

/-! Sortedness lemmas (C8) -/

theorem keysSorted_insertA {α : Type} {k : String} {v : α} {l : List (String × α)}
    (h : keysSorted l) : keysSorted (insertA k v l) := by
  induction l with
  | nil => simp [insertA, keysSorted]
  | cons p rest ih =>
    rcases List.pairwise_cons.mp h with ⟨hp, hrest⟩
    by_cases h1 : strLt k p.1
    · unfold insertA
      rw [if_pos h1]
      have h1' : k < p.1 := (strLt_iff _ _).mp h1
      refine List.Pairwise.cons ?_ h
      intro q hq
      rcases List.mem_cons.mp hq with hq | hq
      · subst hq
        exact h1'
      · exact lt_trans h1' (hp q hq)
    · by_cases h2 : k = p.1
      · unfold insertA
        rw [if_neg h1, if_pos h2]
        refine List.Pairwise.cons ?_ hrest
        intro q hq
        rw [h2]
        exact hp q hq
      · unfold insertA
        rw [if_neg h1, if_neg h2]
        have h1' : ¬k < p.1 := fun hc => h1 ((strLt_iff _ _).mpr hc)
        refine List.Pairwise.cons ?_ (ih hrest)
        intro q hq
        rcases mem_insertA hq with hq | hq
        · rw [hq]
          exact lt_of_le_of_ne (le_of_not_lt h1') (fun he => h2 he.symm)
        · exact hp q hq

theorem mergeSection_sorted {sizes : List (String × Nat)} {obj : ElfObject}
    {secs secs' : SecMap} {s : InputSection}
    (h : mergeSection sizes obj secs s = .ok secs')
    (hs : keysSorted secs) : keysSorted secs' := by
  by_cases hd : s.data = []
  · rw [mergeSection_skip (Or.inl hd) h]; exact hs
  · by_cases hinc : included s.name
    · obtain ⟨rs, _, hs'⟩ := mergeSection_ok_included hd (by simpa using hinc) h
      subst hs'
      exact keysSorted_insertA hs
    · rw [mergeSection_skip (Or.inr (by simpa using hinc)) h]; exact hs

theorem mergeSections_sorted {sizes : List (String × Nat)} {obj : ElfObject} :
    ∀ {ss : List InputSection} {secs secs' : SecMap},
    mergeSections sizes obj secs ss = .ok secs' → keysSorted secs → keysSorted secs' := by
  intro ss
  induction ss with
  | nil =>
    intro secs secs' h hs
    unfold mergeSections at h
    cases h
    exact hs
  | cons s rest ih =>
    intro secs secs' h hs
    unfold mergeSections at h
    cases h0 : mergeSection sizes obj secs s with
    | error f => rw [h0] at h; cases h
    | ok secs1 =>
      rw [h0] at h
      exact ih h (mergeSection_sorted h0 hs)

theorem addSymbol_sorted {sizes : List (String × Nat)} {obj : ElfObject}
    {syms syms' : SymMap} {sym : InputSymbol}
    (h : addSymbol sizes obj syms sym = .ok syms')
    (hs : keysSorted syms) : keysSorted syms' := by
  unfold addSymbol at h
  split at h
  · cases h; exact hs
  · split at h
    · split at h
      · cases h
      · cases h
        exact keysSorted_insertA hs
    · cases h

theorem addSymbols_sorted {sizes : List (String × Nat)} {obj : ElfObject} :
    ∀ {ls : List InputSymbol} {syms syms' : SymMap},
    addSymbols sizes obj syms ls = .ok syms' → keysSorted syms → keysSorted syms' := by
  intro ls
  induction ls with
  | nil =>
    intro syms syms' h hs
    unfold addSymbols at h
    cases h
    exact hs
  | cons sym rest ih =>
    intro syms syms' h hs
    unfold addSymbols at h
    cases h0 : addSymbol sizes obj syms sym with
    | error f => rw [h0] at h; cases h
    | ok syms1 =>
      rw [h0] at h
      exact ih h (addSymbol_sorted h0 hs)

theorem mergeList_sorted :
    ∀ {items : List InputItem} {st st' : SecMap × SymMap},
    mergeList st items = .ok st' → keysSorted st.1 → keysSorted st.2 →
    keysSorted st'.1 ∧ keysSorted st'.2 := by
  intro items
  induction items with
  | nil =>
    intro st st' h h1 h2
    unfold mergeList at h
    cases h
    exact ⟨h1, h2⟩
  | cons it rest ih =>
    intro st st' h h1 h2
    unfold mergeList at h
    cases hi : mergeItem st it with
    | error f => rw [hi] at h; cases h
    | ok st1 =>
      rw [hi] at h
      cases it with
      | object o =>
        obtain ⟨hsec, hsym⟩ := mergeObject_ok_inv hi
        exact ih h (mergeSections_sorted hsec h1) (addSymbols_sorted hsym h2)
      | archive =>
        unfold mergeItem at hi
        cases hi
        exact ih h h1 h2
      | invalid =>
        unfold mergeItem at hi
        cases hi

/-! Nonemptiness of merged sections -/

theorem mergeSection_nonempty {sizes : List (String × Nat)} {obj : ElfObject}
    {secs secs' : SecMap} {s : InputSection}
    (h : mergeSection sizes obj secs s = .ok secs')
    (hne : ∀ p ∈ secs, p.2.content ≠ []) : ∀ p ∈ secs', p.2.content ≠ [] := by
  by_cases hd : s.data = []
  · rw [mergeSection_skip (Or.inl hd) h]; exact hne
  · by_cases hinc : included s.name
    · obtain ⟨rs, _, hs'⟩ := mergeSection_ok_included hd (by simpa using hinc) h
      subst hs'
      intro p hp
      rcases mem_insertA hp with hp | hp
      · subst hp
        simp [hd]
      · exact hne p hp
    · rw [mergeSection_skip (Or.inr (by simpa using hinc)) h]; exact hne

theorem mergeSections_nonempty {sizes : List (String × Nat)} {obj : ElfObject} :
    ∀ {ss : List InputSection} {secs secs' : SecMap},
    mergeSections sizes obj secs ss = .ok secs' →
    (∀ p ∈ secs, p.2.content ≠ []) → ∀ p ∈ secs', p.2.content ≠ [] := by
  intro ss
  induction ss with
  | nil =>
    intro secs secs' h hne
    unfold mergeSections at h
    cases h
    exact hne
  | cons s rest ih =>
    intro secs secs' h hne
    unfold mergeSections at h
    cases h0 : mergeSection sizes obj secs s with
    | error f => rw [h0] at h; cases h
    | ok secs1 =>
      rw [h0] at h
      exact ih h (mergeSection_nonempty h0 hne)

theorem mergeList_nonempty :
    ∀ {items : List InputItem} {st st' : SecMap × SymMap},
    mergeList st items = .ok st' →
    (∀ p ∈ st.1, p.2.content ≠ []) → ∀ p ∈ st'.1, p.2.content ≠ [] := by
  intro items
  induction items with
  | nil =>
    intro st st' h hne
    unfold mergeList at h
    cases h
    exact hne
  | cons it rest ih =>
    intro st st' h hne
    unfold mergeList at h
    cases hi : mergeItem st it with
    | error f => rw [hi] at h; cases h
    | ok st1 =>
      rw [hi] at h
      cases it with
      | object o =>
        exact ih h (mergeSections_nonempty (mergeObject_ok_inv hi).1 hne)
      | archive =>
        unfold mergeItem at hi
        cases hi
        exact ih h hne
      | invalid =>
        unfold mergeItem at hi
        cases hi

theorem keysSorted_transfer {α β : Type} {l1 : List (String × α)} {l2 : List (String × β)}
    (hk : l1.map (fun p => p.1) = l2.map (fun p => p.1))
    (h : keysSorted l1) : keysSorted l2 := by
  unfold keysSorted at h ⊢
  have h1 := (@List.pairwise_map _ _ (fun p : String × α => p.1)
    (fun a b : String => a < b) l1).mpr h
  rw [hk] at h1
  exact (List.pairwise_map).mp h1

/-! Pipeline inversion -/

theorem linkCore_ok_inv {items : List InputItem} {out : LinkOutput}
    (h : linkCore items = .ok out) :
    ∃ secs0, mergeAll items = .ok (secs0, out.symbols) ∧
      out.addresses = sectionAddresses (layoutSections headersLen secs0).1 ∧
      relocateAll out.addresses out.symbols (layoutSections headersLen secs0).1 =
        .ok out.sections ∧
      computeEntry out.addresses out.symbols = .ok out.entry ∧
      resolveSymbolAddrs out.addresses out.symbols = .ok out.symbolAddresses := by
  unfold linkCore at h
  cases hm : mergeAll items with
  | error f => rw [hm] at h; cases h
  | ok st =>
    simp only [hm] at h
    cases hr : relocateAll (sectionAddresses (layoutSections headersLen st.1).1) st.2
        (layoutSections headersLen st.1).1 with
    | error f => rw [hr] at h; cases h
    | ok secs2 =>
      simp only [hr] at h
      cases he : computeEntry (sectionAddresses (layoutSections headersLen st.1).1) st.2 with
      | error f => rw [he] at h; cases h
      | ok entry =>
        simp only [he] at h
        cases hs : resolveSymbolAddrs (sectionAddresses (layoutSections headersLen st.1).1)
            st.2 with
        | error f => rw [hs] at h; cases h
        | ok symAddrs =>
          simp only [hs] at h
          cases h
          exact ⟨st.1, rfl, rfl, hr, he, hs⟩

/-! The claims -/

/-- C1: for every output section produced by the merge phase, its
content is exactly the concatenation of the data of all non-excluded,
non-empty input sections of that name, in input-file order and, within
each object, in section order; hence its length is the sum of those
input sections' sizes. -/
theorem claim_c1 (items : List InputItem) (secs : SecMap) (syms : SymMap)
    (h : mergeAll items = .ok (secs, syms)) (name : String) :
    contentAt secs name = specContent name items ∧
    (contentAt secs name).length = specSizeSum name items := by
  have h1 := mergeList_content
    (show mergeList ([], []) items = .ok (secs, syms) from h) name
  have h2 : contentAt secs name = specContent name items := by
    simpa [contentAt, lookupA] using h1
  exact ⟨h2, by rw [h2]; exact specContent_length name items⟩

theorem claim_c1_witness :
    contentAt exMerged.1 ".text" = specContent ".text" exItems ∧
    (contentAt exMerged.1 ".text").length = specSizeSum ".text" exItems :=
  claim_c1 exItems exMerged.1 exMerged.2 (by decide) ".text"

/-- C2: a relocation against a `Section`-kind symbol is rewritten as a
section-target relocation whose extra offset is the `base_offsets`
snapshot of the defining section taken when the referencing object
started to be processed (i.e. the size the target output section had
before this object, `lenAt secs ts.name`, not its final size), and the
relocation engine later resolves it to
`virtual_address[section] + extra`. -/
theorem claim_c2 (secs : SecMap) (syms0 : SymMap) (obj : ElfObject)
    (secs' : SecMap) (syms' : SymMap) (s ts : InputSection) (off : Nat)
    (ir : InputReloc) (k m : Nat) (sym : InputSymbol)
    (addrs : List (String × Nat)) (syms : SymMap) (a : Nat)
    (hm : mergeObject (secs, syms0) obj = .ok (secs', syms'))
    (hs : s ∈ obj.sections) (hd : s.data ≠ []) (hinc : included s.name = true)
    (he : (off, ir) ∈ s.relocations) (ht : ir.target = .symbol k)
    (hk : obj.symbols.get? k = some sym) (hkind : sym.kind = .sectionKind)
    (hsect : sym.sect = .inSection m) (hts : obj.sections.get? m = some ts)
    (ha : lookupA addrs ts.name = some a) :
    (∃ out, lookupA secs' s.name = some out ∧
      ({ offset := off + getSize (sectionSizes secs) s.name, kind := ir.kind,
         encoding := ir.encoding, size := ir.size, addend := ir.addend,
         target := RelocationTarget.section ts.name
           (getSize (sectionSizes secs) ts.name) } : Relocation) ∈ out.relocations) ∧
    getSize (sectionSizes secs) ts.name = lenAt secs ts.name ∧
    resolveTarget addrs syms
        (.section ts.name (getSize (sectionSizes secs) ts.name)) =
      .ok (a + getSize (sectionSizes secs) ts.name) := by
  have hreb : rebaseReloc (sectionSizes secs) obj s.name (off, ir) =
      .ok { offset := off + getSize (sectionSizes secs) s.name, kind := ir.kind,
            encoding := ir.encoding, size := ir.size, addend := ir.addend,
            target := RelocationTarget.section ts.name
              (getSize (sectionSizes secs) ts.name) } := by
    have hk' : obj.symbols[k]? = some sym := (List.get?_eq_getElem? _ _).symm.trans hk
    have hts' : obj.sections[m]? = some ts := (List.get?_eq_getElem? _ _).symm.trans hts
    simp [rebaseReloc, ht, hk', hkind, hsect, hts']
  refine ⟨?_, getSize_sectionSizes secs ts.name, ?_⟩
  · exact mergeSections_reloc_mem (mergeObject_ok_inv hm).1 hs hd hinc he hreb
  · simp [resolveTarget, ha]

theorem claim_c2_witness :
    (∃ out, lookupA exMergedA.1 objAText.name = some out ∧
      ({ offset := 4 + getSize (sectionSizes []) objAText.name, kind := RelocKind.absolute,
         encoding := RelocEncoding.x86Signed, size := 32, addend := 2,
         target := RelocationTarget.section objARodata.name
           (getSize (sectionSizes []) objARodata.name) } : Relocation) ∈ out.relocations) ∧
    getSize (sectionSizes []) objARodata.name = lenAt [] objARodata.name ∧
    resolveTarget [(".rodata", 4198400)] []
        (.section objARodata.name (getSize (sectionSizes []) objARodata.name)) =
      .ok (4198400 + getSize (sectionSizes []) objARodata.name) :=
  claim_c2 [] [] objA exMergedA.1 exMergedA.2 objAText objARodata 4
    { kind := .absolute, encoding := .x86Signed, size := 32, addend := 2,
      target := .symbol 2 } 2 2 objARodataSym [(".rodata", 4198400)] [] 4198400
    (by decide) (by simp [objA]) (by decide) (by decide) (by decide) (by decide)
    (by decide) (by decide) (by decide) (by decide) (by decide)

/-- C3: for an `Absolute`/`X86Signed`/32 relocation (R_X86_64_32S) the
engine computes `value = T + addend` and overwrites the four bytes at
`offset .. offset+4` of the section content with the 32-bit
little-endian signed encoding of `value`, leaving all other bytes
unchanged. -/
theorem claim_c3 (addrs : List (String × Nat)) (syms : SymMap) (secOffset : Nat)
    (content : List Nat) (r : Relocation) (t : Nat)
    (hk : r.kind = .absolute) (henc : r.encoding = .x86Signed) (hsz : r.size = 32)
    (ht : resolveTarget addrs syms r.target = .ok t)
    (hb : r.offset + 4 ≤ content.length) :
    ∃ c, applyReloc addrs syms secOffset content r = .ok c ∧
      c.length = content.length ∧
      (∀ i, i < 4 → c.get? (r.offset + i) = some (leByte ((t : Int) + r.addend) i)) ∧
      (∀ j, j < r.offset ∨ r.offset + 4 ≤ j → c.get? j = content.get? j) := by
  have hlen : (toLeBytes4 ((t : Int) + r.addend)).length = 4 := toLeBytes4_length _
  have hb' : r.offset + (toLeBytes4 ((t : Int) + r.addend)).length ≤ content.length := by
    rw [hlen]; exact hb
  have happ : applyReloc addrs syms secOffset content r =
      .ok (patchBytes content r.offset (toLeBytes4 ((t : Int) + r.addend))) := by
    unfold applyReloc
    simp only [ht, hk, henc, hsz]
    rw [if_pos hb]
  refine ⟨_, happ, patchBytes_length hb', ?_, ?_⟩
  · intro i hi
    rw [List.get?_eq_getElem?]
    rw [patchBytes_get_inside hb' (by rw [hlen]; exact hi)]
    exact toLeBytes4_get _ hi
  · intro j hj
    rw [List.get?_eq_getElem?, List.get?_eq_getElem?]
    exact patchBytes_get_outside hb' (by rw [hlen]; exact hj)

theorem claim_c3_witness :
    ∃ c, applyReloc exAddrs [] 0 exContent exR32 = .ok c ∧
      c.length = exContent.length ∧
      (∀ i, i < 4 → c.get? (exR32.offset + i) =
        some (leByte ((4198400 : Int) + exR32.addend) i)) ∧
      (∀ j, j < exR32.offset ∨ exR32.offset + 4 ≤ j → c.get? j = exContent.get? j) :=
  claim_c3 exAddrs [] 0 exContent exR32 4198400 rfl rfl rfl rfl (by decide)

/-- C4: for a `PltRelative`/`Generic`/32 relocation (R_X86_64_PLT32)
the engine computes `P = load_base + file_offset + offset` and
`value = T + addend - P`, and stores the 32-bit little-endian signed
encoding of `value` at `offset .. offset+4`; no PLT is built - the
relocation is implemented exactly as a PC-relative patch. -/
theorem claim_c4 (addrs : List (String × Nat)) (syms : SymMap) (secOffset : Nat)
    (content : List Nat) (r : Relocation) (t : Nat)
    (hk : r.kind = .pltRelative) (henc : r.encoding = .generic) (hsz : r.size = 32)
    (ht : resolveTarget addrs syms r.target = .ok t)
    (hb : r.offset + 4 ≤ content.length) :
    ∃ c, applyReloc addrs syms secOffset content r = .ok c ∧
      c.length = content.length ∧
      (∀ i, i < 4 → c.get? (r.offset + i) =
        some (leByte ((t : Int) + r.addend -
          ((loadAddress + secOffset + r.offset : Nat) : Int)) i)) ∧
      (∀ j, j < r.offset ∨ r.offset + 4 ≤ j → c.get? j = content.get? j) := by
  have hlen : (toLeBytes4 ((t : Int) + r.addend -
      ((loadAddress + secOffset + r.offset : Nat) : Int))).length = 4 := toLeBytes4_length _
  have hb' : r.offset + (toLeBytes4 ((t : Int) + r.addend -
      ((loadAddress + secOffset + r.offset : Nat) : Int))).length ≤ content.length := by
    rw [hlen]; exact hb
  have happ : applyReloc addrs syms secOffset content r =
      .ok (patchBytes content r.offset (toLeBytes4 ((t : Int) + r.addend -
        ((loadAddress + secOffset + r.offset : Nat) : Int)))) := by
    unfold applyReloc
    simp only [ht, hk, henc, hsz]
    rw [if_pos hb]
  refine ⟨_, happ, patchBytes_length hb', ?_, ?_⟩
  · intro i hi
    rw [List.get?_eq_getElem?]
    rw [patchBytes_get_inside hb' (by rw [hlen]; exact hi)]
    exact toLeBytes4_get _ hi
  · intro j hj
    rw [List.get?_eq_getElem?, List.get?_eq_getElem?]
    exact patchBytes_get_outside hb' (by rw [hlen]; exact hj)

theorem claim_c4_witness :
    ∃ c, applyReloc exAddrs exSyms 4096 exContent exRPlt = .ok c ∧
      c.length = exContent.length ∧
      (∀ i, i < 4 → c.get? (exRPlt.offset + i) =
        some (leByte ((4198400 : Int) + exRPlt.addend -
          ((loadAddress + 4096 + exRPlt.offset : Nat) : Int)) i)) ∧
      (∀ j, j < exRPlt.offset ∨ exRPlt.offset + 4 ≤ j → c.get? j = exContent.get? j) :=
  claim_c4 exAddrs exSyms 4096 exContent exRPlt 4198400 rfl rfl rfl rfl (by decide)

/-- C5: after layout, every output section's virtual address is
`load_base + file_offset` with `load_base = 0x400000`; every file
offset is 4096-aligned; and the file ranges of two distinct output
sections are disjoint. -/
theorem claim_c5 (items : List InputItem) (out : LinkOutput)
    (h : linkCore items = .ok out) :
    out.addresses = out.sections.map (fun p => (p.1, p.2.offset + loadAddress)) ∧
    (∀ p ∈ out.sections, p.2.offset % 4096 = 0) ∧
    (∀ i j pi pj, out.sections.get? i = some pi → out.sections.get? j = some pj →
      i ≠ j →
      pi.2.offset + pi.2.content.length ≤ pj.2.offset ∨
      pj.2.offset + pj.2.content.length ≤ pi.2.offset) := by
  obtain ⟨secs0, hm, haddr, hrel, _, _⟩ := linkCore_ok_inv h
  have hproj := relocateAll_proj hrel
  have htrans : ∀ i p, out.sections.get? i = some p →
      ∃ q, ((layoutSections headersLen secs0).1).get? i = some q ∧
        q.2.offset = p.2.offset ∧ q.2.content.length = p.2.content.length := by
    intro i p hp
    have h1 : (out.sections.map
        (fun p => (p.1, p.2.offset, p.2.content.length))).get? i =
        ((layoutSections headersLen secs0).1.map
          (fun p => (p.1, p.2.offset, p.2.content.length))).get? i := by rw [hproj]
    rw [List.get?_map, List.get?_map, hp] at h1
    cases hq : ((layoutSections headersLen secs0).1).get? i with
    | none => rw [hq] at h1; cases h1
    | some q =>
      rw [hq] at h1
      simp only [Option.map_some', Option.some_inj, Prod.mk.injEq] at h1
      exact ⟨q, rfl, h1.2.1.symm, h1.2.2.symm⟩
  have hne0 : ∀ p ∈ secs0, p.2.content ≠ [] :=
    mergeList_nonempty hm (fun p hp => absurd hp (List.not_mem_nil p))
  refine ⟨?_, ?_, ?_⟩
  · have hmap : out.sections.map (fun p => (p.1, p.2.offset + loadAddress)) =
        (layoutSections headersLen secs0).1.map
          (fun p => (p.1, p.2.offset + loadAddress)) := by
      have h1 := congrArg
        (List.map (fun q : String × Nat × Nat => (q.1, q.2.1 + loadAddress))) hproj
      simpa [List.map_map, Function.comp] using h1
    rw [haddr]
    exact hmap.symm
  · intro p hp
    obtain ⟨i, hip⟩ := List.mem_iff_get?.mp hp
    obtain ⟨q, hq, hoff, _⟩ := htrans i p hip
    rw [List.get?_eq_getElem?] at hq
    rw [← hoff]
    exact layoutSections_align hne0 hq
  · intro i j pi pj hpi hpj hij
    obtain ⟨qi, hqi, hoffi, hleni⟩ := htrans i pi hpi
    obtain ⟨qj, hqj, hoffj, hlenj⟩ := htrans j pj hpj
    rw [List.get?_eq_getElem?] at hqi hqj
    rw [← hoffi, ← hleni, ← hoffj, ← hlenj]
    rcases Nat.lt_or_ge i j with hlt | hge
    · exact Or.inl (layoutSections_sep hqi hqj hlt)
    · have hjlt : j < i := lt_of_le_of_ne hge (fun he => hij he.symm)
      exact Or.inr (layoutSections_sep hqj hqi hjlt)

theorem claim_c5_witness :
    exOut.addresses = exOut.sections.map (fun p => (p.1, p.2.offset + loadAddress)) ∧
    (∀ p ∈ exOut.sections, p.2.offset % 4096 = 0) ∧
    (∀ i j pi pj, exOut.sections.get? i = some pi → exOut.sections.get? j = some pj →
      i ≠ j →
      pi.2.offset + pi.2.content.length ≤ pj.2.offset ∨
      pj.2.offset + pj.2.content.length ≤ pi.2.offset) :=
  claim_c5 exItems exOut (by decide)

/-- C6: the entry-point field written into the output file header is
the resolved address of `_start`:
`virtual_address[_start.section_name] + _start.offset`. -/
theorem claim_c6 (items : List InputItem) (out : LinkOutput) (sym : Symbol) (a : Nat)
    (h : linkCore items = .ok out)
    (hs : lookupA out.symbols "_start" = some sym)
    (ha : lookupA out.addresses sym.sectionName = some a) :
    out.entry = a + sym.offset := by
  obtain ⟨secs0, _, _, _, he, _⟩ := linkCore_ok_inv h
  unfold computeEntry at he
  simp only [hs, ha] at he
  injection he with he2
  exact he2.symm

theorem claim_c6_witness : exOut.entry = 4202496 + exStartSym.offset :=
  claim_c6 exItems exOut exStartSym 4202496 (by decide) (by decide) (by decide)

/-- C7 counterexample: on an accepted input whose objects never define
`_start`, `link` does not return an error value: it panics on the
`symbols["_start"]` BTreeMap index (modelled as `LinkFailure.crash`),
so the claim that every fatal condition is surfaced to the caller as a
returned error value is false. -/
theorem claim_c7_counterexample :
    linkCore exNoStart = .error (.crash "no entry found for key") ∧
    isFatalError (linkCore exNoStart) = false :=
  ⟨by decide, by decide⟩

/-- C7 (amended): a relocation against a symbol missing from the global
symbol table, and a missing `_start`, abort via a panic (BTreeMap
indexing), not via a returned error value; so do the unsupported
relocation forms - a raw relocation target other than a symbol, and a
kind/encoding/size combination other than the two supported ones -
which are `unimplemented!()` panics.  Only fatal conditions detected
through `Result` are returned to the caller as a single error value: an
unreadable or unparsable input file, and an out-of-range symbol or
section index met while rebasing a relocation or defining a symbol. -/
theorem claim_c7 :
    (∀ (addrs : List (String × Nat)) (syms : SymMap) (n : String),
      lookupA syms n = none →
      resolveTarget addrs syms (.symbol n) = .error (.crash "no entry found for key")) ∧
    (∀ (addrs : List (String × Nat)) (syms : SymMap),
      lookupA syms "_start" = none →
      computeEntry addrs syms = .error (.crash "no entry found for key")) ∧
    (∀ (sizes : List (String × Nat)) (obj : ElfObject) (name : String) (off : Nat)
      (ir : InputReloc), ir.target = .otherTarget →
      rebaseReloc sizes obj name (off, ir) =
        .error (.crash "unimplemented relocation target")) ∧
    (∀ (addrs : List (String × Nat)) (syms : SymMap) (secOffset : Nat)
      (content : List Nat) (r : Relocation) (t : Nat),
      resolveTarget addrs syms r.target = .ok t →
      ¬(r.kind = .absolute ∧ r.encoding = .x86Signed ∧ r.size = 32) →
      ¬(r.kind = .pltRelative ∧ r.encoding = .generic ∧ r.size = 32) →
      applyReloc addrs syms secOffset content r =
        .error (.crash "unimplemented relocation")) ∧
    (∀ (st : SecMap × SymMap) (rest : List InputItem),
      mergeList st (.invalid :: rest) = .error (.fatal "parse failure")) ∧
    (∀ (sizes : List (String × Nat)) (obj : ElfObject) (name : String) (off k : Nat)
      (ir : InputReloc), ir.target = .symbol k → obj.symbols.get? k = none →
      rebaseReloc sizes obj name (off, ir) = .error (.fatal "invalid symbol index")) ∧
    (∀ (sizes : List (String × Nat)) (obj : ElfObject) (name : String) (off k m : Nat)
      (ir : InputReloc) (sym : InputSymbol),
      ir.target = .symbol k → obj.symbols.get? k = some sym →
      sym.kind = .sectionKind → sym.sect = .inSection m → obj.sections.get? m = none →
      rebaseReloc sizes obj name (off, ir) = .error (.fatal "invalid section index")) ∧
    (∀ (sizes : List (String × Nat)) (obj : ElfObject) (syms : SymMap)
      (sym : InputSymbol) (idx : Nat),
      sym.sect = .inSection idx → sym.kind ≠ .sectionKind →
      obj.sections.get? idx = none →
      addSymbol sizes obj syms sym = .error (.fatal "invalid section index")) := by
  refine ⟨?_, ?_, ?_, ?_, ?_, ?_, ?_, ?_⟩
  · intro addrs syms n hn
    simp [resolveTarget, hn]
  · intro addrs syms hn
    simp [computeEntry, hn]
  · intro sizes obj name off ir ht
    simp [rebaseReloc, ht]
  · intro addrs syms secOffset content r t ht h1 h2
    unfold applyReloc
    simp only [ht]
    split
    · rename_i hk henc hsz
      exact absurd ⟨hk, henc, hsz⟩ h1
    · rename_i hk henc hsz
      exact absurd ⟨hk, henc, hsz⟩ h2
    · rfl
  · intro st rest
    rfl
  · intro sizes obj name off k ir ht hk
    have hk' : obj.symbols[k]? = none := (List.get?_eq_getElem? _ _).symm.trans hk
    simp [rebaseReloc, ht, hk']
  · intro sizes obj name off k m ir sym ht hk hkind hsect hts
    have hk' : obj.symbols[k]? = some sym := (List.get?_eq_getElem? _ _).symm.trans hk
    have hts' : obj.sections[m]? = none := (List.get?_eq_getElem? _ _).symm.trans hts
    simp [rebaseReloc, ht, hk', hkind, hsect, hts']
  · intro sizes obj syms sym idx hsect hknd hts
    have hts' : obj.sections[idx]? = none := (List.get?_eq_getElem? _ _).symm.trans hts
    have hcond : ¬(sym.sect = .undef ∨ sym.kind = .sectionKind) := by
      rintro (hc | hc)
      · rw [hsect] at hc
        cases hc
      · exact hknd hc
    simp [addSymbol, hcond, hsect, hts', hknd]

theorem claim_c7_witness :
    resolveTarget [] [] (.symbol "missing") = .error (.crash "no entry found for key") ∧
    computeEntry [] [] = .error (.crash "no entry found for key") ∧
    rebaseReloc [] objA ".text" (0, exIrOther) =
      .error (.crash "unimplemented relocation target") ∧
    applyReloc exAddrs [] 0 exContent exRUnsupported =
      .error (.crash "unimplemented relocation") ∧
    mergeList ([], []) [.invalid] = .error (.fatal "parse failure") ∧
    rebaseReloc [] objA ".text" (0, exIrBadIdx) = .error (.fatal "invalid symbol index") ∧
    rebaseReloc [] objNoSects ".text" (0, exIrBadSect) =
      .error (.fatal "invalid section index") ∧
    addSymbol [] objNoSects [] badOffSym = .error (.fatal "invalid section index") :=
  ⟨claim_c7.1 [] [] "missing" rfl,
   claim_c7.2.1 [] [] rfl,
   claim_c7.2.2.1 [] objA ".text" 0 exIrOther rfl,
   claim_c7.2.2.2.1 exAddrs [] 0 exContent exRUnsupported 4198400 rfl
     (by decide) (by decide),
   claim_c7.2.2.2.2.1 ([], []) [],
   claim_c7.2.2.2.2.2.1 [] objA ".text" 0 99 exIrBadIdx rfl rfl,
   claim_c7.2.2.2.2.2.2.1 [] objNoSects ".text" 0 1 7 exIrBadSect badSectSym
     rfl rfl rfl rfl rfl,
   claim_c7.2.2.2.2.2.2.2 [] objNoSects [] badOffSym 9 rfl (by decide) rfl⟩

/-- C8: linking is deterministic - two runs of the pipeline on the same
inputs give the same result - and both the output-section map and the
symbol map iterate in strictly increasing (lexicographic) key order,
independent of any hash randomization. -/
theorem claim_c8 (items : List InputItem) (out : LinkOutput)
    (h : linkCore items = .ok out) :
    (∀ r1 r2 : Except LinkFailure LinkOutput,
      linkCore items = r1 → linkCore items = r2 → r1 = r2) ∧
    keysSorted out.sections ∧ keysSorted out.symbols := by
  obtain ⟨secs0, hm, haddr, hrel, _, _⟩ := linkCore_ok_inv h
  have hsorted := mergeList_sorted
    (show mergeList ([], []) items = .ok (secs0, out.symbols) from hm)
    List.Pairwise.nil List.Pairwise.nil
  have hkeys1 : secs0.map (fun p => p.1) =
      (layoutSections headersLen secs0).1.map (fun p => p.1) := by
    have h1 := congrArg (List.map (fun q : String × List Nat => q.1))
      (layoutSections_proj secs0 headersLen)
    simpa [List.map_map, Function.comp] using h1.symm
  have hkeys2 : (layoutSections headersLen secs0).1.map (fun p => p.1) =
      out.sections.map (fun p => p.1) := by
    have h1 := congrArg (List.map (fun q : String × Nat × Nat => q.1))
      (relocateAll_proj hrel)
    simpa [List.map_map, Function.comp] using h1.symm
  refine ⟨fun r1 r2 h1 h2 => h1.symm.trans h2, ?_, hsorted.2⟩
  exact keysSorted_transfer (hkeys1.trans hkeys2) hsorted.1

theorem claim_c8_witness :
    (∀ r1 r2 : Except LinkFailure LinkOutput,
      linkCore exItems = r1 → linkCore exItems = r2 → r1 = r2) ∧
    keysSorted exOut.sections ∧ keysSorted exOut.symbols :=
  claim_c8 exItems exOut (by decide)

/-- C9 counterexample: the object parser does not validate relocation
offsets, so an accepted input can carry a relocation whose offset (100)
lies outside its 4-byte section; the merged relocation then violates
the claimed bound and the relocation engine's in-place patch aborts
with a slice out-of-range panic. -/
theorem claim_c9_counterexample :
    mergeAll exOOB = .ok (exMergedOOB.1, exMergedOOB.2) ∧
    relocsInBounds exMergedOOB.1 = false ∧
    linkCore exOOB = .error (.crash "range end index out of range") :=
  ⟨by decide, by decide, by decide⟩

/-- C9 (amended): provided every input relocation lies within its input
section's data (`offset + size_bits/8 ≤ data.len`), every relocation
recorded in an output section satisfies
`offset + size_bits/8 ≤ content.len`, so the engine's in-place patches
stay in bounds. -/
theorem claim_c9 (items : List InputItem) (secs : SecMap) (syms : SymMap)
    (h : mergeAll items = .ok (secs, syms)) (hin : inputRelocsInBounds items) :
    relocsInBounds secs = true := by
  rw [relocsInBounds_iff]
  exact mergeList_bounds h hin (fun p hp => absurd hp (List.not_mem_nil p))

theorem claim_c9_witness : relocsInBounds exMerged.1 = true :=
  claim_c9 exItems exMerged.1 exMerged.2 (by decide) (by
    intro o ho
    simp only [exItems, List.mem_cons, List.mem_singleton,
      List.not_mem_nil, or_false] at ho
    rcases ho with ho | ho
    · cases ho
      unfold objRelocsInBounds
      decide
    · cases ho
      unfold objRelocsInBounds
      decide)

/-- C10: the output file is touched only after parsing, merging,
layout, relocation patching and buffer assembly have all succeeded: a
failing pipeline produces no file-system effect on the output path, and
a non-empty effect trace is exactly the final write followed by the
permission change. -/
theorem claim_c10 (items : List InputItem) (path : String) :
    (∀ f, (link items path).2 = .error f → (link items path).1 = []) ∧
    (∀ e evs, (link items path).1 = e :: evs →
      ∃ out, linkCore items = .ok out ∧
        (link items path).1 = [Event.fsWrite path out, Event.setPermissions path 493]) := by
  unfold link
  cases h : linkCore items with
  | error f =>
    constructor
    · intro f' _
      rfl
    · intro e evs he
      cases he
  | ok out =>
    constructor
    · intro f' hf
      cases hf
    · intro e evs _
      exact ⟨out, rfl, rfl⟩

theorem claim_c10_witness : (link [InputItem.invalid] "a.out").1 = [] :=
  (claim_c10 [.invalid] "a.out").1 (.fatal "parse failure") (by decide)

end Cold
